/-
Verification of the translation-serving core of the yimt repository
(`yimt/api/translator.py`), shallowly embedded in Lean 4.

Strings are modelled as lists of characters (`Str`).  External
collaborators (the SentencePiece tokenizer, the inference backends, the
paragraph segmenter/reassembler) are parameters of the embedded
functions, exactly as they are opaque calls in the source.
-/
import Mathlib

namespace Yimt

/-- A Python string, modelled as a list of characters. -/
abbrev Str := List Char

/-- Python `s.replace(a, b)` for a one-character pattern `a` and a
one-character replacement `b`: every occurrence of `a` in `s` is replaced
by `b`; a one-character pattern makes this a character-wise map. -/
def pyReplaceChar (a b : Char) (s : Str) : Str :=
  s.map fun c => if c = a then b else c

/-- The target-language code `"zh"` as a `Str`. -/
def zhStr : Str := ['z', 'h']

/-- `Translator._post_zh` (translator.py lines 109-119): when
`self.to_lang == "zh"`, each translation has `","` replaced by `"，"`,
then `";"` by `"；"`, then `":"` by `"："`; otherwise the list is
returned unchanged. -/
def post_zh (to_lang : Str) (translations : List Str) : List Str :=
  if to_lang = zhStr then
    translations.map fun t =>
      pyReplaceChar ':' '：' (pyReplaceChar ';' '；' (pyReplaceChar ',' '，' t))
  else
    translations

/-- The per-character substitution the spec describes for the Chinese
postprocessing rule table: `','` to `'，'`, `';'` to `'；'`, `':'` to
`'：'`, all other characters unchanged.  Written from the spec's words,
to be compared with `post_zh` from the source. -/
def zhPunctChar (c : Char) : Char :=
  if c = ',' then '，'
  else if c = ';' then '；'
  else if c = ':' then '：'
  else c

/-- The slices taken by the loop of `Translator.translate_list`
(translator.py lines 95-99): for `i in range(0, len(texts), bs)` the
slice is `texts[i:i+bs]` when `i + bs < len(texts)` and `texts[i:]`
otherwise.  The remaining suffix after one iteration is `texts[i+bs:]`,
which for `bs >= 1` is `ts.drop (bs - 1)` of the tail `ts`. -/
def chunks (bs : Nat) : List Str → List (List Str)
  | [] => []
  | t :: ts =>
    (if bs < ts.length + 1 then (t :: ts).take bs else t :: ts) :: chunks bs (ts.drop (bs - 1))
termination_by l => l.length
decreasing_by
  simp only [List.length_drop, List.length_cons]
  omega

/-- The loop body of `Translator.translate_list` (translator.py lines
95-106): per iteration, slice the batch, call `_translate_batch`, apply
`_post_zh`, and extend the accumulated results. `tb` is the abstract
backend `_translate_batch`. -/
def translate_list_go (bs : Nat) (tb : List Str → List Str) (to_lang : Str) :
    List Str → List Str
  | [] => []
  | t :: ts =>
    post_zh to_lang (tb (if bs < ts.length + 1 then (t :: ts).take bs else t :: ts))
      ++ translate_list_go bs tb to_lang (ts.drop (bs - 1))
termination_by l => l.length
decreasing_by
  simp only [List.length_drop, List.length_cons]
  omega

/-- `Translator.translate_list` (translator.py lines 84-107).  For
`bs = 0` Python's `range(0, n, 0)` raises `ValueError`, modelled as
`none`. -/
def translate_list (bs : Nat) (tb : List Str → List Str) (to_lang : Str)
    (texts : List Str) : Option (List Str) :=
  if bs = 0 then none else some (translate_list_go bs tb to_lang texts)

/-- The per-sentence effect of `_post_zh`, used to state order
preservation sentence by sentence. -/
def sentence_post (to_lang : Str) (t : Str) : Str :=
  if to_lang = zhStr then t.map zhPunctChar else t

/- Helper lemmas about the Chinese punctuation postprocessing. -/

theorem replace_chain_eq_map (t : Str) :
    pyReplaceChar ':' '：' (pyReplaceChar ';' '；' (pyReplaceChar ',' '，' t))
      = t.map zhPunctChar := by
  simp only [pyReplaceChar, List.map_map]
  apply List.map_congr_left
  intro c _
  simp only [Function.comp_apply, zhPunctChar]
  by_cases h1 : c = ',' <;> by_cases h2 : c = ';' <;> by_cases h3 : c = ':' <;>
    simp_all

theorem sentence_post_zh (t : Str) : sentence_post zhStr t = t.map zhPunctChar := by
  simp [sentence_post]

theorem post_zh_eq_map (to_lang : Str) (ts : List Str) :
    post_zh to_lang ts = ts.map (sentence_post to_lang) := by
  by_cases h : to_lang = zhStr
  · subst h
    unfold post_zh
    rw [if_pos rfl]
    apply List.map_congr_left
    intro t _
    rw [sentence_post_zh]
    exact replace_chain_eq_map t
  · unfold post_zh
    rw [if_neg h]
    exact ((List.map_congr_left fun t _ => by simp [sentence_post, h]).trans
      (List.map_id' ts)).symm

theorem zhPunctChar_idem (c : Char) : zhPunctChar (zhPunctChar c) = zhPunctChar c := by
  unfold zhPunctChar
  by_cases h1 : c = ',' <;> by_cases h2 : c = ';' <;> by_cases h3 : c = ':' <;>
    simp_all

theorem sentence_post_zh_idem (t : Str) :
    sentence_post zhStr (sentence_post zhStr t) = sentence_post zhStr t := by
  rw [sentence_post_zh, sentence_post_zh, List.map_map]
  exact List.map_congr_left fun c _ => zhPunctChar_idem c

/- Helper lemmas about the batching loop. -/

theorem chunks_flatten (bs : Nat) (hbs : 1 ≤ bs) (texts : List Str) :
    (chunks bs texts).flatten = texts := by
  induction texts using chunks.induct bs with
  | case1 => simp [chunks]
  | case2 t ts ih =>
    rw [chunks, List.flatten_cons, ih]
    split
    · obtain ⟨m, rfl⟩ : ∃ m, bs = m + 1 := ⟨bs - 1, by omega⟩
      simp only [Nat.add_sub_cancel, List.take_succ_cons, List.cons_append]
      rw [List.take_append_drop]
    · next h =>
      rw [List.drop_eq_nil_of_le (by omega), List.append_nil]

theorem chunks_mem_length_le (bs : Nat) (texts : List Str) :
    ∀ c ∈ chunks bs texts, c.length ≤ bs := by
  induction texts using chunks.induct bs with
  | case1 => simp [chunks]
  | case2 t ts ih =>
    intro c hc
    rw [chunks] at hc
    rcases List.mem_cons.mp hc with h | h
    · subst h
      split
      · next hlt => simp [List.length_take]
      · next hlt =>
        simp only [List.length_cons]
        omega
    · exact ih c h

theorem chunks_mem_ne_nil (bs : Nat) (hbs : 1 ≤ bs) (texts : List Str) :
    ∀ c ∈ chunks bs texts, c ≠ [] := by
  induction texts using chunks.induct bs with
  | case1 => simp [chunks]
  | case2 t ts ih =>
    intro c hc
    rw [chunks] at hc
    rcases List.mem_cons.mp hc with h | h
    · subst h
      split
      · obtain ⟨m, rfl⟩ : ∃ m, bs = m + 1 := ⟨bs - 1, by omega⟩
        simp
      · simp
    · exact ih c h

theorem translate_list_go_eq (bs : Nat) (tb : List Str → List Str) (to_lang : Str)
    (texts : List Str) :
    translate_list_go bs tb to_lang texts
      = ((chunks bs texts).map fun b => post_zh to_lang (tb b)).flatten := by
  induction texts using chunks.induct bs with
  | case1 => simp [chunks, translate_list_go]
  | case2 t ts ih =>
    rw [chunks, translate_list_go, List.map_cons, List.flatten_cons, ih]

theorem translate_list_go_map (bs : Nat) (hbs : 1 ≤ bs) (tb : List Str → List Str)
    (g : Str → Str) (to_lang : Str) (texts : List Str)
    (hg : ∀ l, tb l = l.map g) :
    translate_list_go bs tb to_lang texts
      = texts.map fun t => sentence_post to_lang (g t) := by
  rw [translate_list_go_eq]
  have h1 : ∀ b : List Str, post_zh to_lang (tb b)
      = b.map fun t => sentence_post to_lang (g t) := by
    intro b
    rw [hg, post_zh_eq_map, List.map_map]
    rfl
  calc ((chunks bs texts).map fun b => post_zh to_lang (tb b)).flatten
      = ((chunks bs texts).map fun b =>
          b.map fun t => sentence_post to_lang (g t)).flatten := by
        rw [List.map_congr_left fun b _ => h1 b]
    _ = ((chunks bs texts).flatten).map fun t => sentence_post to_lang (g t) :=
        (List.map_flatten _ _).symm
    _ = texts.map fun t => sentence_post to_lang (g t) := by
        rw [chunks_flatten bs hbs]

/-- C1: for every batch size at least 1, `translate_list` partitions the
sentence list into contiguous batches of at most `batch_size` sentences
(the partition flattens back to the input and every batch is at most
`batch_size` long), processes the batches in list order and returns the
per-batch outputs concatenated in that same order; for a sentence-wise
backend the result is the input list mapped position by position; a
zero-length input yields an empty result with no batch dispatched. -/
theorem translate_list_partitions (bs : Nat) (tb : List Str → List Str) (to_lang : Str)
    (texts : List Str) (hbs : 1 ≤ bs) :
    (chunks bs texts).flatten = texts
    ∧ (∀ c ∈ chunks bs texts, c.length ≤ bs)
    ∧ translate_list bs tb to_lang texts
        = some (((chunks bs texts).map fun b => post_zh to_lang (tb b)).flatten)
    ∧ (∀ g : Str → Str, (∀ l, tb l = l.map g) →
        translate_list bs tb to_lang texts
          = some (texts.map fun t => sentence_post to_lang (g t)))
    ∧ translate_list bs tb to_lang [] = some []
    ∧ chunks bs ([] : List Str) = [] := by
  have hbs0 : bs ≠ 0 := by omega
  refine ⟨chunks_flatten bs hbs texts, chunks_mem_length_le bs texts, ?_, ?_, ?_, ?_⟩
  · simp only [translate_list, if_neg hbs0]
    rw [translate_list_go_eq]
  · intro g hg
    simp only [translate_list, if_neg hbs0]
    rw [translate_list_go_map bs hbs tb g to_lang texts hg]
  · simp [translate_list, hbs0, translate_list_go]
  · simp [chunks]

/-- Witness for C1 at batch size 2 on a three-sentence list with the
identity backend. -/
theorem translate_list_partitions_witness :
    (chunks 2 [['a'], ['b'], ['c']]).flatten = [['a'], ['b'], ['c']]
    ∧ (∀ c ∈ chunks 2 [['a'], ['b'], ['c']], c.length ≤ 2)
    ∧ translate_list 2 (fun l => l) zhStr [['a'], ['b'], ['c']]
        = some (((chunks 2 [['a'], ['b'], ['c']]).map fun b => post_zh zhStr b).flatten)
    ∧ (∀ g : Str → Str, (∀ l : List Str, l = l.map g) →
        translate_list 2 (fun l => l) zhStr [['a'], ['b'], ['c']]
          = some ([['a'], ['b'], ['c']].map fun t => sentence_post zhStr (g t)))
    ∧ translate_list 2 (fun l => l) zhStr [] = some []
    ∧ chunks 2 ([] : List Str) = [] :=
  translate_list_partitions 2 (fun l => l) zhStr [['a'], ['b'], ['c']] (by decide)

/-- C3: with target language `"zh"` the postprocessing maps every
character through the fixed table (ASCII comma, semicolon and colon to
their full-width forms, all other characters unchanged) in each
sentence; with any other target language the list is returned
unchanged. -/
theorem post_zh_rule_table (to_lang : Str) (ts : List Str) :
    post_zh zhStr ts = ts.map (fun t => t.map zhPunctChar)
    ∧ (to_lang ≠ zhStr → post_zh to_lang ts = ts) := by
  constructor
  · rw [post_zh_eq_map]
    exact List.map_congr_left fun t _ => sentence_post_zh t
  · intro h
    rw [post_zh_eq_map]
    exact (List.map_congr_left fun t _ => by simp [sentence_post, h]).trans
      (List.map_id' ts)

/-- Witness for C3 on a sentence holding all three ASCII marks plus a
letter, with the non-Chinese target language `"en"`. -/
theorem post_zh_rule_table_witness :
    post_zh zhStr [[',', ';', ':', 'a']]
        = [[',', ';', ':', 'a']].map (fun t => t.map zhPunctChar)
    ∧ post_zh ['e', 'n'] [[',', ';', ':', 'a']] = [[',', ';', ':', 'a']] :=
  ⟨(post_zh_rule_table ['e', 'n'] [[',', ';', ':', 'a']]).1,
   (post_zh_rule_table ['e', 'n'] [[',', ';', ':', 'a']]).2 (by decide)⟩

/-- C7: the Chinese punctuation postprocessing is idempotent, and on
sentences containing none of the three ASCII marks it is a no-op. -/
theorem post_zh_idempotent (ts : List Str) :
    post_zh zhStr (post_zh zhStr ts) = post_zh zhStr ts
    ∧ ((∀ t ∈ ts, ∀ c ∈ t, c ≠ ',' ∧ c ≠ ';' ∧ c ≠ ':') → post_zh zhStr ts = ts) := by
  constructor
  · rw [post_zh_eq_map, post_zh_eq_map, List.map_map]
    exact List.map_congr_left fun t _ => sentence_post_zh_idem t
  · intro h
    rw [post_zh_eq_map]
    have hfix : ∀ t ∈ ts, sentence_post zhStr t = t := by
      intro t ht
      rw [sentence_post_zh]
      have hc : ∀ c ∈ t, zhPunctChar c = c := by
        intro c hcmem
        obtain ⟨h1, h2, h3⟩ := h t ht c hcmem
        simp [zhPunctChar, h1, h2, h3]
      exact (List.map_congr_left hc).trans (List.map_id' t)
    exact (List.map_congr_left hfix).trans (List.map_id' ts)

/-- Witness for C7 on already-normalized full-width text. -/
theorem post_zh_idempotent_witness :
    post_zh zhStr (post_zh zhStr [['，', '；', '：', '。']])
        = post_zh zhStr [['，', '；', '：', '。']]
    ∧ post_zh zhStr [['，', '；', '：', '。']] = [['，', '；', '：', '。']] :=
  ⟨(post_zh_idempotent [['，', '；', '：', '。']]).1,
   (post_zh_idempotent [['，', '；', '：', '。']]).2 (by decide)⟩

/-- C8: for a sentence-wise deterministic backend, translating a fixed
non-empty sentence list with batch size 1 gives exactly the same result
list as translating it with batch size equal to the list's length: the
batch size affects only the grouping. -/
theorem batching_invariance (tb : List Str → List Str) (g : Str → Str) (to_lang : Str)
    (texts : List Str) (hN : 1 ≤ texts.length) (hg : ∀ l, tb l = l.map g) :
    translate_list 1 tb to_lang texts = translate_list texts.length tb to_lang texts := by
  have h0 : texts.length ≠ 0 := by omega
  simp only [translate_list, if_neg h0, if_neg (show (1 : Nat) ≠ 0 by omega)]
  rw [translate_list_go_map 1 le_rfl tb g to_lang texts hg,
      translate_list_go_map texts.length hN tb g to_lang texts hg]

/-- Witness for C8 on a two-sentence list with a backend prepending a
bang to each sentence. -/
theorem batching_invariance_witness :
    translate_list 1 (fun l => l.map fun t => '!' :: t) zhStr [['a'], ['b']]
      = translate_list 2 (fun l => l.map fun t => '!' :: t) zhStr [['a'], ['b']] :=
  batching_invariance (fun l => l.map fun t => '!' :: t) (fun t => '!' :: t) zhStr
    [['a'], ['b']] (by decide) (fun l => rfl)

/- Detokenization (`Translator._detokenize`, translator.py lines 177-186). -/

/-- The whitespace characters removed by Python `str.strip()`,
restricted to the ASCII range. -/
def isPySpace (c : Char) : Bool :=
  c = ' ' || c = '\t' || c = '\n' || c = '\r' || c = '\x0b' || c = '\x0c'

/-- Python `s.strip()`: remove leading and trailing whitespace. -/
def pyStrip (s : Str) : Str :=
  ((s.dropWhile isPySpace).reverse.dropWhile isPySpace).reverse

/-- `Translator._detokenize`:
`" ".join(tokens).replace(" ", "").replace("▁", " ").strip()`.
A one-character pattern replaced by the empty string removes every
occurrence of that character, i.e. filters it out. -/
def detokenize (tokens : List Str) : Str :=
  pyStrip (pyReplaceChar '▁' ' ' ((List.intercalate [' '] tokens).filter fun c => c != ' '))

/-- Modelled from the spec's words for C6, step 1: join the tokens with
a single space. -/
def specJoinSingleSpace : List Str → Str
  | [] => []
  | [t] => t
  | t :: u :: us => t ++ ' ' :: specJoinSingleSpace (u :: us)

/-- Modelled from the spec's words for C6, step 2: delete all spaces. -/
def specDeleteAllSpaces (s : Str) : Str :=
  s.filter fun c => c != ' '

/-- Modelled from the spec's words for C6, step 3: replace the
word-boundary marker character with a literal space. -/
def specReplaceMarkerWithSpace (s : Str) : Str :=
  s.map fun c => if c = '▁' then ' ' else c

/-- Modelled from the spec's words for C6, step 4: trim leading and
trailing whitespace. -/
def specTrimWhitespace (s : Str) : Str :=
  ((s.dropWhile isPySpace).reverse.dropWhile isPySpace).reverse

theorem intercalate_single_space (tokens : List Str) :
    List.intercalate [' '] tokens = specJoinSingleSpace tokens := by
  induction tokens with
  | nil => simp [List.intercalate, specJoinSingleSpace]
  | cons t ts ih =>
    cases ts with
    | nil => simp [List.intercalate, specJoinSingleSpace]
    | cons u us =>
      rw [specJoinSingleSpace, ← ih]
      simp [List.intercalate, List.intersperse]

/-- C6: the shared detokenization step computes exactly the spec's
four-stage pipeline — join with a single space, delete all spaces,
replace the word-boundary marker `'▁'` with a space, trim surrounding
whitespace. -/
theorem detokenize_pipeline (tokens : List Str) :
    detokenize tokens
      = specTrimWhitespace (specReplaceMarkerWithSpace
          (specDeleteAllSpaces (specJoinSingleSpace tokens))) := by
  rw [detokenize, intercalate_single_space]
  rfl

/- Backend selection (`load_translator`, translator.py lines 32-48). -/

/-- The three backend classes the factory can instantiate. -/
inductive Backend where
  | ct2
  | saved
  | ckpt
deriving DecidableEq

/-- The observable facts about a model/config location that
`load_translator` branches on: whether `ctranslate2.contains_model`
recognizes it, and whether it contains a file named `saved_model.pb`. -/
structure ModelLocation where
  containsCT2Model : Bool
  hasSavedModelPb : Bool
deriving DecidableEq

/-- `load_translator` (translator.py lines 32-48): probe CTranslate2
first, then the `saved_model.pb` marker, else fall back to the
checkpoint-based translator. -/
def load_translator (loc : ModelLocation) : Backend :=
  if loc.containsCT2Model then Backend.ct2
  else if loc.hasSavedModelPb then Backend.saved
  else Backend.ckpt

/-- C5: the factory probes in fixed priority order with no fallback
between branches — a CTranslate2 model always yields the CT2 adapter,
otherwise a `saved_model.pb` marker yields the SavedModel adapter,
otherwise the checkpoint translator is instantiated. -/
theorem load_translator_priority (loc : ModelLocation) :
    (loc.containsCT2Model = true → load_translator loc = Backend.ct2)
    ∧ (loc.containsCT2Model = false → loc.hasSavedModelPb = true →
        load_translator loc = Backend.saved)
    ∧ (loc.containsCT2Model = false → loc.hasSavedModelPb = false →
        load_translator loc = Backend.ckpt) := by
  refine ⟨fun h => ?_, fun h1 h2 => ?_, fun h1 h2 => ?_⟩ <;>
    simp [load_translator, *]

/-- Witness for C5 at the three concrete locations, including one where
both markers hold (priority goes to CT2). -/
theorem load_translator_priority_witness :
    load_translator ⟨true, true⟩ = Backend.ct2
    ∧ load_translator ⟨false, true⟩ = Backend.saved
    ∧ load_translator ⟨false, false⟩ = Backend.ckpt :=
  ⟨(load_translator_priority ⟨true, true⟩).1 rfl,
   (load_translator_priority ⟨false, true⟩).2.1 rfl rfl,
   (load_translator_priority ⟨false, false⟩).2.2 rfl rfl⟩

/- Batch construction and padding strip (`Translator._preprocess` lines
156-175, `Translator._postprocess` lines 188-199). -/

/-- A subword token, itself a string. -/
abbrev Token := Str

/-- The padding sentinel: the empty-string token `""`. -/
def emptyToken : Token := []

/-- `Translator._preprocess`: tokenize each text, record the true
per-text token counts, take their maximum (Python `max` on an empty
list raises `ValueError`, modelled as `none`), pad each token list with
trailing `""` sentinels up to the maximum, and return the padded token
lists together with the true lengths.  `tok` is the abstract
SentencePiece encoder. -/
def preprocess (tok : Str → List Token) (texts : List Str) :
    Option (List (List Token) × List Nat) :=
  match ((texts.map tok).map List.length).max? with
  | none => none
  | some max_length =>
    some (List.zipWith (fun tokens length =>
        if length < max_length then tokens ++ List.replicate (max_length - length) emptyToken
        else tokens) (texts.map tok) ((texts.map tok).map List.length),
      (texts.map tok).map List.length)

/-- `Translator._postprocess`: for each output row, take hypothesis 0's
tokens truncated to hypothesis 0's recorded length and detokenize them;
indexing `[0]` into an empty row raises, modelled as `none`.  The rows
of `outputs["tokens"]` and `outputs["length"]` are paired by Python
`zip`, which stops at the shorter input. -/
def postprocess (tokensOut : List (List (List Token))) (lengthsOut : List (List Nat)) :
    Option (List Str) :=
  (tokensOut.zip lengthsOut).mapM fun tl =>
    match tl.1, tl.2 with
    | t :: _, l :: _ => some (detokenize (t.take l))
    | _, _ => none

theorem zipWith_pad_forall2 (tok : Str → List Token) (m : Nat) (texts : List Str) :
    List.Forall₂ (fun p t => p = tok t ++ List.replicate (m - (tok t).length) emptyToken)
      (List.zipWith (fun tokens length =>
          if length < m then tokens ++ List.replicate (m - length) emptyToken
          else tokens) (texts.map tok) ((texts.map tok).map List.length)) texts := by
  induction texts with
  | nil => simp
  | cons t ts ih =>
    simp only [List.map_cons, List.zipWith_cons_cons]
    refine List.Forall₂.cons ?_ ih
    by_cases hlt : (tok t).length < m
    · rw [if_pos hlt]
    · rw [if_neg hlt]
      have hz : m - (tok t).length = 0 := by omega
      rw [hz]
      simp

theorem zipWith_pad_length (tok : Str → List Token) (m : Nat) (texts : List Str)
    (hle : ∀ t ∈ texts, (tok t).length ≤ m) :
    ∀ p ∈ List.zipWith (fun tokens length =>
        if length < m then tokens ++ List.replicate (m - length) emptyToken
        else tokens) (texts.map tok) ((texts.map tok).map List.length),
      p.length = m := by
  induction texts with
  | nil => simp
  | cons t ts ih =>
    intro p hp
    simp only [List.map_cons, List.zipWith_cons_cons, List.mem_cons] at hp
    rcases hp with rfl | hp
    · have hle1 := hle t (List.mem_cons_self t ts)
      by_cases hlt : (tok t).length < m
      · rw [if_pos hlt]
        simp only [List.length_append, List.length_replicate]
        omega
      · rw [if_neg hlt]
        omega
    · exact ih (fun u hu => hle u (List.mem_cons_of_mem t hu)) p hp

theorem postprocess_padded (tok : Str → List Token) (m : Nat) (texts : List Str) :
    postprocess ((List.zipWith (fun tokens length =>
          if length < m then tokens ++ List.replicate (m - length) emptyToken
          else tokens) (texts.map tok) ((texts.map tok).map List.length)).map fun p => [p])
        (((texts.map tok).map List.length).map fun l => [l])
      = some (texts.map fun t => detokenize (tok t)) := by
  induction texts with
  | nil => rfl
  | cons t ts ih =>
    simp only [List.map_cons, List.zipWith_cons_cons]
    rw [postprocess, List.zip_cons_cons, List.mapM_cons]
    rw [postprocess] at ih
    rw [ih]
    have htake : (if (tok t).length < m
        then tok t ++ List.replicate (m - (tok t).length) emptyToken
        else tok t).take (tok t).length = tok t := by
      by_cases hlt : (tok t).length < m
      · rw [if_pos hlt, List.take_left]
      · rw [if_neg hlt, List.take_length]
    simp [htake]

/-- C4: on a non-empty batch, `_preprocess` succeeds and returns, for
every sentence, exactly the tokenizer's output followed by trailing
empty-token sentinels padding it precisely up to the batch maximum
token count `m` (so every padded row has length `m`), alongside the
vector of true pre-pad token counts; and `_postprocess`, applied to
rows shaped this way, truncates each row back to its recorded true
length, so the detokenized output is that of the unpadded tokens and
contains no padding sentinel. -/
theorem pad_and_strip (tok : Str → List Token) (texts : List Str) (h : texts ≠ []) :
    ∃ padded lengths m,
      preprocess tok texts = some (padded, lengths)
      ∧ lengths = texts.map (fun t => (tok t).length)
      ∧ lengths.max? = some m
      ∧ List.Forall₂ (fun p t => p = tok t ++ List.replicate (m - (tok t).length) emptyToken)
          padded texts
      ∧ (∀ p ∈ padded, p.length = m)
      ∧ postprocess (padded.map fun p => [p]) (lengths.map fun l => [l])
          = some (texts.map fun t => detokenize (tok t)) := by
  obtain ⟨m, hm⟩ : ∃ m, (((texts.map tok).map List.length).max?) = some m := by
    cases texts with
    | nil => exact absurd rfl h
    | cons t ts => exact Option.isSome_iff_exists.mp (by simp)
  have hle : ∀ t ∈ texts, (tok t).length ≤ m := by
    intro t ht
    have hmem : (tok t).length ∈ (texts.map tok).map List.length :=
      List.mem_map_of_mem List.length (List.mem_map_of_mem tok ht)
    have hm2 := hm
    rw [List.max?_eq_some_iff] at hm2
    · exact hm2.2 _ hmem
    · intro a
      omega
    · intro a b
      omega
    · intro a b
      omega
  refine ⟨_, _, m, ?_, List.map_map _ _ _, hm, zipWith_pad_forall2 tok m texts,
    zipWith_pad_length tok m texts hle, postprocess_padded tok m texts⟩
  rw [preprocess, hm]

/-- Witness for C4: two sentences tokenized character by character,
with token counts 2 and 1, so the batch maximum is 2. -/
theorem pad_and_strip_witness :
    ∃ padded lengths m,
      preprocess (fun t => t.map fun c => ([c] : Token)) [['a', 'b'], ['c']]
          = some (padded, lengths)
      ∧ lengths = [['a', 'b'], ['c']].map
          (fun t => (t.map fun c => ([c] : Token)).length)
      ∧ lengths.max? = some m
      ∧ List.Forall₂ (fun p t =>
          p = (t.map fun c => ([c] : Token))
            ++ List.replicate (m - (t.map fun c => ([c] : Token)).length) emptyToken)
          padded [['a', 'b'], ['c']]
      ∧ (∀ p ∈ padded, p.length = m)
      ∧ postprocess (padded.map fun p => [p]) (lengths.map fun l => [l])
          = some ([['a', 'b'], ['c']].map fun t =>
              detokenize (t.map fun c => ([c] : Token))) :=
  pad_and_strip (fun t => t.map fun c => ([c] : Token)) [['a', 'b'], ['c']] (by decide)

/-- C10: with any batch size at least 1, every batch the
`translate_list` loop dispatches is non-empty; `_preprocess` on an
empty batch fails (`max` of an empty length list), so that failure is
unreachable from `translate_list`; and an empty input list yields an
empty result with no dispatched batch. -/
theorem translate_list_nonempty_batches (bs : Nat) (tb : List Str → List Str)
    (tok : Str → List Token) (to_lang : Str) (texts : List Str) (hbs : 1 ≤ bs) :
    (∀ b ∈ chunks bs texts, b ≠ [])
    ∧ preprocess tok [] = none
    ∧ chunks bs ([] : List Str) = []
    ∧ translate_list bs tb to_lang [] = some [] := by
  refine ⟨chunks_mem_ne_nil bs hbs texts, rfl, by simp [chunks], ?_⟩
  simp [translate_list, translate_list_go, show bs ≠ 0 by omega]

/-- Witness for C10 at batch size 2 on a three-sentence list. -/
theorem translate_list_nonempty_batches_witness :
    (∀ b ∈ chunks 2 [['a'], ['b'], ['c']], b ≠ [])
    ∧ preprocess (fun t => t.map fun c => ([c] : Token)) [] = none
    ∧ chunks 2 ([] : List Str) = []
    ∧ translate_list 2 (fun l => l) zhStr [] = some [] :=
  translate_list_nonempty_batches 2 (fun l => l)
    (fun t => t.map fun c => ([c] : Token)) zhStr [['a'], ['b'], ['c']] (by decide)

/- Concurrency model for `translate_paragraph` (translator.py lines
51-52 and 121-140).  Each thread runs the body of
`translate_paragraph`: segment via `paragraph_tokenizer` (line 133,
before the lock), enter `with mutex` (line 135), run `translate_list`
inside the lock (line 136), leave the `with` block, reassemble via
`paragraph_detokenizer` (line 138, after the lock).  `mutex` is the
single module-level `threading.Lock`. -/

/-- The program counter of one thread executing `translate_paragraph`. -/
inductive Phase where
  | segmenting
  | ready
  | critical
  | reassembling
  | done
deriving DecidableEq

/-- A global state: the phase of every thread plus the module-level
`mutex` (held or free). -/
structure MTState where
  phases : Nat → Phase
  lock : Bool

/-- One interleaving step: segmentation needs no lock; entering the
`with mutex` block requires the lock to be free and takes it; leaving
the block releases it; reassembly needs no lock. -/
inductive MTStep : MTState → MTState → Prop where
  | segment (s : MTState) (i : Nat) (h : s.phases i = Phase.segmenting) :
      MTStep s ⟨Function.update s.phases i Phase.ready, s.lock⟩
  | acquire (s : MTState) (i : Nat) (h : s.phases i = Phase.ready) (hl : s.lock = false) :
      MTStep s ⟨Function.update s.phases i Phase.critical, true⟩
  | release (s : MTState) (i : Nat) (h : s.phases i = Phase.critical) :
      MTStep s ⟨Function.update s.phases i Phase.reassembling, false⟩
  | reassemble (s : MTState) (i : Nat) (h : s.phases i = Phase.reassembling) :
      MTStep s ⟨Function.update s.phases i Phase.done, s.lock⟩

/-- The initial state: every thread about to segment, lock free. -/
def initState : MTState := ⟨fun _ => Phase.segmenting, false⟩

/-- States reachable by interleaving concurrent `translate_paragraph`
calls from the initial state. -/
inductive MTReachable : MTState → Prop where
  | init : MTReachable initState
  | step (s t : MTState) (hs : MTReachable s) (st : MTStep s t) : MTReachable t

/-- The inductive invariant: a thread inside `translate_list` implies
the lock is held, and at most one thread is inside. -/
def MutexInv (s : MTState) : Prop :=
  (∀ i, s.phases i = Phase.critical → s.lock = true)
  ∧ (∀ i j, s.phases i = Phase.critical → s.phases j = Phase.critical → i = j)

theorem update_eq_critical {f : Nat → Phase} {i j : Nat} {v : Phase}
    (hv : v ≠ Phase.critical) (h : Function.update f i v j = Phase.critical) :
    f j = Phase.critical ∧ j ≠ i := by
  by_cases hij : j = i
  · subst hij
    rw [Function.update_same] at h
    exact absurd h hv
  · rw [Function.update_noteq hij] at h
    exact ⟨h, hij⟩

theorem mutexInv_step (s t : MTState) (hs : MutexInv s) (st : MTStep s t) :
    MutexInv t := by
  obtain ⟨hlock, huniq⟩ := hs
  cases st with
  | segment i h =>
    exact ⟨fun j hj => hlock j (update_eq_critical (by simp) hj).1,
      fun j k hj hk => huniq j k (update_eq_critical (by simp) hj).1
        (update_eq_critical (by simp) hk).1⟩
  | acquire i h hl =>
    refine ⟨fun j hj => rfl, fun j k hj hk => ?_⟩
    have hcase : ∀ a : Nat, Function.update s.phases i Phase.critical a = Phase.critical →
        a = i := by
      intro a ha
      by_cases hai : a = i
      · exact hai
      · rw [Function.update_noteq hai] at ha
        have hct := hlock a ha
        rw [hl] at hct
        exact absurd hct (by simp)
    rw [hcase j hj, hcase k hk]
  | release i h =>
    refine ⟨fun j hj => ?_, fun j k hj hk => ?_⟩
    · exact absurd (huniq j i (update_eq_critical (by simp) hj).1 h)
        (update_eq_critical (by simp) hj).2
    · exact absurd (huniq j i (update_eq_critical (by simp) hj).1 h)
        (update_eq_critical (by simp) hj).2
  | reassemble i h =>
    exact ⟨fun j hj => hlock j (update_eq_critical (by simp) hj).1,
      fun j k hj hk => huniq j k (update_eq_critical (by simp) hj).1
        (update_eq_critical (by simp) hk).1⟩

theorem mutexInv_reachable (s : MTState) (hs : MTReachable s) : MutexInv s := by
  induction hs with
  | init => exact ⟨fun i hi => absurd hi (by simp [initState]),
      fun i j hi hj => absurd hi (by simp [initState])⟩
  | step s t hs st ih => exact mutexInv_step s t ih st

/-- C2: in every reachable interleaving of concurrent
`translate_paragraph` calls, at most one thread is inside
`translate_list` at a time, a thread inside it holds the process-wide
lock, and the segmentation and reassembly steps are enabled regardless
of the lock state and leave the lock unchanged (they run outside the
lock). -/
theorem translate_paragraph_mutual_exclusion (s : MTState) (hreach : MTReachable s) :
    (∀ i j, s.phases i = Phase.critical → s.phases j = Phase.critical → i = j)
    ∧ (∀ i, s.phases i = Phase.critical → s.lock = true)
    ∧ (∀ i, s.phases i = Phase.segmenting →
        MTStep s ⟨Function.update s.phases i Phase.ready, s.lock⟩)
    ∧ (∀ i, s.phases i = Phase.reassembling →
        MTStep s ⟨Function.update s.phases i Phase.done, s.lock⟩) := by
  obtain ⟨hlock, huniq⟩ := mutexInv_reachable s hreach
  exact ⟨huniq, hlock, fun i hi => MTStep.segment s i hi,
    fun i hi => MTStep.reassemble s i hi⟩

/-- Witness for C2 at the initial state of the interleaving model. -/
theorem translate_paragraph_mutual_exclusion_witness :
    (∀ i j, initState.phases i = Phase.critical → initState.phases j = Phase.critical →
        i = j)
    ∧ (∀ i, initState.phases i = Phase.critical → initState.lock = true)
    ∧ (∀ i, initState.phases i = Phase.segmenting →
        MTStep initState ⟨Function.update initState.phases i Phase.ready, initState.lock⟩)
    ∧ (∀ i, initState.phases i = Phase.reassembling →
        MTStep initState ⟨Function.update initState.phases i Phase.done, initState.lock⟩) :=
  translate_paragraph_mutual_exclusion initState MTReachable.init

/- Exception propagation (translator.py lines 84-107 and 121-140).
The fallible backend is `tbE`; an `Except.error` models a raised
exception.  `translate_paragraph_exc` returns, besides the outcome, the
state of the module-level lock after the call: Python's `with mutex`
releases the lock on both the normal and the exceptional exit of the
block. -/

/-- The loop of `translate_list` with a fallible backend: a raised
exception aborts the loop at once, discarding all accumulated
results. -/
def translate_list_go_exc {ε : Type} (bs : Nat) (tbE : List Str → Except ε (List Str))
    (to_lang : Str) : List Str → Except ε (List Str)
  | [] => Except.ok []
  | t :: ts =>
    match tbE (if bs < ts.length + 1 then (t :: ts).take bs else t :: ts) with
    | Except.error e => Except.error e
    | Except.ok translations =>
      match translate_list_go_exc bs tbE to_lang (ts.drop (bs - 1)) with
      | Except.error e => Except.error e
      | Except.ok rest => Except.ok (post_zh to_lang translations ++ rest)
termination_by l => l.length
decreasing_by
  simp only [List.length_drop, List.length_cons]
  omega

/-- `translate_list` with a fallible backend; `none` models the
`ValueError` of a zero batch size. -/
def translate_list_exc {ε : Type} (bs : Nat) (tbE : List Str → Except ε (List Str))
    (to_lang : Str) (texts : List Str) : Option (Except ε (List Str)) :=
  if bs = 0 then none else some (translate_list_go_exc bs tbE to_lang texts)

/-- `translate_paragraph` with a fallible backend: segment, run
`translate_list` under the lock, reassemble.  The second component of
the result is the lock state after the call; the `with` statement
releases the lock on the exceptional exit as well as on the normal
one, so it is `false` in both branches.  An exception is propagated
uncaught. -/
def translate_paragraph_exc {ε π : Type} (bs : Nat) (tbE : List Str → Except ε (List Str))
    (to_lang : Str) (seg : Str → List Str × π) (detok : List Str → π → Str) (src : Str) :
    Option (Except ε Str × Bool) :=
  match translate_list_exc bs tbE to_lang (seg src).1 with
  | none => none
  | some (Except.error e) => some (Except.error e, false)
  | some (Except.ok translations) => some (Except.ok (detok translations (seg src).2), false)

/-- Folding the fallible loop body over an explicit batch list, used to
reason about which batch fails first. -/
def chunks_run {ε : Type} (tbE : List Str → Except ε (List Str)) (to_lang : Str) :
    List (List Str) → Except ε (List Str)
  | [] => Except.ok []
  | c :: cs =>
    match tbE c with
    | Except.error e => Except.error e
    | Except.ok translations =>
      match chunks_run tbE to_lang cs with
      | Except.error e => Except.error e
      | Except.ok rest => Except.ok (post_zh to_lang translations ++ rest)

theorem go_exc_eq_chunks_run {ε : Type} (bs : Nat) (tbE : List Str → Except ε (List Str))
    (to_lang : Str) (texts : List Str) :
    translate_list_go_exc bs tbE to_lang texts = chunks_run tbE to_lang (chunks bs texts) := by
  induction texts using chunks.induct bs with
  | case1 =>
    rw [translate_list_go_exc, chunks]
    rfl
  | case2 t ts ih =>
    rw [chunks, translate_list_go_exc, ih]
    rfl

theorem chunks_run_error_of_mem {ε : Type} (tbE : List Str → Except ε (List Str))
    (to_lang : Str) (pre post : List (List Str)) (b : List Str) (e : ε)
    (hpre : ∀ c ∈ pre, ∃ r, tbE c = Except.ok r) (hb : tbE b = Except.error e) :
    chunks_run tbE to_lang (pre ++ b :: post) = Except.error e := by
  induction pre with
  | nil =>
    rw [List.nil_append, chunks_run, hb]
  | cons c cs ih =>
    obtain ⟨r, hr⟩ := hpre c (List.mem_cons_self c cs)
    rw [List.cons_append, chunks_run, hr,
      ih fun d hd => hpre d (List.mem_cons_of_mem c hd)]

/-- C9: if the backend raises on some batch of the loop (all earlier
batches having succeeded), the very exception raised propagates uncaught
out of `translate_paragraph`, no partial result is returned and no
retry happens (the outcome is exactly that first error), and the
process-wide lock is nonetheless released on that exit path. -/
theorem batch_exception_aborts {ε π : Type} (bs : Nat)
    (tbE : List Str → Except ε (List Str)) (to_lang : Str)
    (seg : Str → List Str × π) (detok : List Str → π → Str) (src : Str)
    (pre post : List (List Str)) (b : List Str) (e : ε)
    (hbs : 1 ≤ bs)
    (hch : chunks bs (seg src).1 = pre ++ b :: post)
    (hpre : ∀ c ∈ pre, ∃ r, tbE c = Except.ok r)
    (hb : tbE b = Except.error e) :
    translate_paragraph_exc bs tbE to_lang seg detok src
      = some (Except.error e, false) := by
  have h0 : bs ≠ 0 := by omega
  have hlist : translate_list_exc bs tbE to_lang (seg src).1 = some (Except.error e) := by
    rw [translate_list_exc, if_neg h0, go_exc_eq_chunks_run, hch,
      chunks_run_error_of_mem tbE to_lang pre post b e hpre hb]
  rw [translate_paragraph_exc, hlist]

/-- Witness for C9: a one-sentence paragraph with a backend that always
raises; the error reaches the caller and the lock ends up released. -/
theorem batch_exception_aborts_witness :
    translate_paragraph_exc 1 (fun _ => Except.error 0) zhStr
        (fun src => ([src], 0)) (fun l _ => l.flatten) ['a']
      = some (Except.error 0, false) :=
  batch_exception_aborts 1 (fun _ => Except.error 0) zhStr (fun src => ([src], 0))
    (fun l _ => l.flatten) ['a'] [] [] [['a']] 0 (by decide) (by simp [chunks])
    (by simp) rfl

end Yimt
